import Mathlib

/-!
Shallow embedding of the review-reconciliation engine of
`hokuto_marge_ocr_xml_reviews.py`.

Text is modelled as `List Char` (Python `str`), whitespace removal, stripping,
splitting and joining are modelled character by character after the source.
The only external-library call inside the embedded functions is
`difflib.SequenceMatcher(None, s1, s2).ratio()`; it is a pure function of its
two string arguments, so every embedded function that calls it takes the
similarity function as an explicit parameter `ratio`/`sim : Str → Str → ℚ`.
All properties proved below hold for an arbitrary such function, which matches
the spec's "regardless of text similarity" phrasing.  Python floats are
modelled as rationals; `int(x)` on a nonnegative value is modelled as `Nat`
floor division at its single use site.
-/

namespace Hokuto

/-- Python `str`, modelled as a list of characters. -/
abbrev Str := List Char

/-- Python's whitespace class (`\s` / `str.isspace`) restricted to the ASCII
whitespace characters; the repository's review text never relies on the
additional Unicode space code points. -/
def isWS (c : Char) : Bool :=
  c == ' ' || c == '\t' || c == '\n' || c == '\r' || c == '\x0b' || c == '\x0c'

/-- `_norm_no_ws(s)` / `re.sub(r'\s+', '', s)`: drop every whitespace char. -/
def norm_no_ws (s : Str) : Str := s.filter (fun c => !isWS c)

/-- Python `str.lstrip()`. -/
def lstripWS (s : Str) : Str := s.dropWhile isWS

/-- Python `str.rstrip()`. -/
def rstripWS (s : Str) : Str := (s.reverse.dropWhile isWS).reverse

/-- Python `str.strip()`. -/
def stripWS (s : Str) : Str := lstripWS (rstripWS s)

/-- Python `p in s` for strings: `p` is a prefix of `s`. -/
def isPrefOf : Str → Str → Bool
  | [], _ => true
  | _ :: _, [] => false
  | a :: as, b :: bs => a == b && isPrefOf as bs

/-- Python `p in s` for strings: contiguous-substring test. -/
def isSubstrOf : Str → Str → Bool
  | p, [] => isPrefOf p []
  | p, c :: rest => isPrefOf p (c :: rest) || isSubstrOf p rest

/-- `_index_after_norm_chars(original, norm_chars)`: the index just after the
`norm_chars`-th non-whitespace character of `original` (`0` for
`norm_chars <= 0`, `len(original)` when the characters run out). -/
def index_after_norm_chars : Str → ℕ → ℕ
  | _, 0 => 0
  | [], _ + 1 => 0
  | c :: rest, r + 1 =>
    if isWS c then index_after_norm_chars rest (r + 1) + 1
    else if r = 0 then 1
    else index_after_norm_chars rest r + 1

/-- The descending list `[hi, hi-1, ...]` of `n` naturals, modelling
Python's `range(hi, lo-1, -1)` when `n = hi + 1 - lo`. -/
def downFrom : ℕ → ℕ → List ℕ
  | _, 0 => []
  | hi, n + 1 => hi :: downFrom (hi - 1) n

/-- The body of the scan loop of `_best_overlap_len`: try each candidate
length `l` (given in the scanned order), returning the first one whose
suffix/prefix pair matches exactly or fuzzily, else `0`.
`aNorm[-l:]` is `aNorm` itself when `l = 0` (Python negative-zero slice). -/
def overlapScan (ratio : Str → Str → ℚ) (aNorm bNorm : Str) (fuzzy : ℚ) :
    List ℕ → ℕ
  | [] => 0
  | l :: rest =>
    let s1 := if l = 0 then aNorm else aNorm.drop (aNorm.length - l)
    let s2 := bNorm.take l
    if s1 = s2 then l
    else if fuzzy ≤ ratio s1 s2 then l
    else overlapScan ratio aNorm bNorm fuzzy rest

/-- `_best_overlap_len(a_norm, b_norm, min_len, max_len, fuzzy_ratio)`:
length of the longest qualifying overlap of `aNorm`'s suffix with `bNorm`'s
prefix, scanning from `limit` down to `minLen`; `0` if none qualifies. -/
def best_overlap_len (ratio : Str → Str → ℚ) (aNorm bNorm : Str)
    (minLen maxLen : ℕ) (fuzzy : ℚ) : ℕ :=
  let limit := min (min aNorm.length bNorm.length) maxLen
  if limit < minLen then 0
  else overlapScan ratio aNorm bNorm fuzzy (downFrom limit (limit + 1 - minLen))

/-- `merge_text_by_overlap(a, b, min_overlap, max_overlap, fuzzy_ratio)`.
Returns `(merged_text, merged_bool)`. -/
def merge_text_by_overlap (ratio : Str → Str → ℚ) (a b : Str)
    (minOv maxOv : ℕ) (fuzzy : ℚ) : Str × Bool :=
  let aN := norm_no_ws a
  let bN := norm_no_ws b
  if aN = [] then (b, true)
  else if bN = [] then (a, true)
  else if isSubstrOf aN bN then (b, true)
  else if isSubstrOf bN aN then (a, true)
  else
    let l1 := best_overlap_len ratio aN bN minOv maxOv fuzzy
    let l2 := best_overlap_len ratio bN aN minOv maxOv fuzzy
    if l1 = 0 ∧ l2 = 0 then (a, false)
    else if l2 ≤ l1 then
      let cut := index_after_norm_chars b l1
      let suffix := lstripWS (b.drop cut)
      let joiner : Str :=
        if a ≠ [] ∧ a.getLast? ≠ some '\n' ∧ suffix ≠ [] then ['\n'] else []
      (rstripWS a ++ joiner ++ suffix, true)
    else
      let cut := index_after_norm_chars a l2
      let suffix := lstripWS (a.drop cut)
      let joiner : Str :=
        if b ≠ [] ∧ b.getLast? ≠ some '\n' ∧ suffix ≠ [] then ['\n'] else []
      (rstripWS b ++ joiner ++ suffix, true)

/-! ## Review records -/

/-- An OCR-derived review record (the dict built by `parse_ocr_reviews`);
only the fields read by the embedded functions are kept. -/
structure OcrReview where
  university : Str
  grade : Str
  gender : Str
  participation : Str
  year : Str
  good_points : Str
  concerns : Str
  deriving DecidableEq, Repr

/-- An XML-derived review record (the dict built by `parse_xml_reviews`). -/
structure XmlReview where
  university : Str
  grade : Str
  gender : Str
  participation : Str
  year : Str
  text : Str
  deriving DecidableEq, Repr

/-- A merged review record as appended by `merge_reviews`.  `similarity` keeps
the raw matcher score (`none` for Python's `'N/A'`; the source stores the
percent-formatted string of the same value). -/
structure MergedReview where
  university : Str
  grade : Str
  gender : Str
  participation : Str
  year : Str
  good_points : Str
  concerns : Str
  source : Str
  similarity : Option ℚ
  deriving DecidableEq, Repr

/-- `_same_meta_for_adjacent_merge(r1, r2)`: eligibility test of the
adjacency walk.  Year/grade/participation must be equal; gender and
university disqualify only when both sides are non-blank and different. -/
def same_meta_for_adjacent_merge (r1 r2 : OcrReview) : Bool :=
  if r1.year ≠ r2.year then false
  else if r1.grade ≠ r2.grade then false
  else if r1.participation ≠ r2.participation then false
  else
    let g1 := stripWS r1.gender
    let g2 := stripWS r2.gender
    if g1 ≠ [] ∧ g2 ≠ [] ∧ g1 ≠ g2 then false
    else
      let u1 := stripWS r1.university
      let u2 := stripWS r2.university
      if u1 ≠ [] ∧ u2 ≠ [] ∧ u1 ≠ u2 then false
      else true

/-- `same_meta(a, b)`: the (textually identical) metadata test of the
windowed deduplication pass inside `parse_ocr_reviews`. -/
def same_meta (a b : OcrReview) : Bool :=
  if a.year ≠ b.year then false
  else if a.grade ≠ b.grade then false
  else if a.participation ≠ b.participation then false
  else
    let ga := stripWS a.gender
    let gb := stripWS b.gender
    if ga ≠ [] ∧ gb ≠ [] ∧ ga ≠ gb then false
    else
      let ua := stripWS a.university
      let ub := stripWS b.university
      if ua ≠ [] ∧ ub ≠ [] ∧ ua ≠ ub then false
      else true

/-! ## Content splitter -/

/-- Python `text.split('\n')` (all pieces kept, including empty ones). -/
def splitOnNl : Str → List Str
  | [] => [[]]
  | c :: rest =>
    if c = '\n' then [] :: splitOnNl rest
    else
      match splitOnNl rest with
      | [] => [[c]]
      | p :: ps => (c :: p) :: ps

/-- Python `'\n'.join(parts)`. -/
def joinNl : List Str → Str
  | [] => []
  | [p] => p
  | p :: q :: ps => p ++ '\n' :: joinNl (q :: ps)

/-- `[p.strip() for p in xml_text.split('\n') if p.strip()]`. -/
def splitParagraphs (xmlText : Str) : List Str :=
  ((splitOnNl xmlText).map stripWS).filter (fun p => p ≠ [])

/-- The boundary-selection loop of `split_xml_by_ocr_structure`:
walk the paragraphs accumulating normalized length, keeping the boundary
index whose cumulative length is strictly closest to `target`
(`minDiff = none` models the initial `float('inf')`). -/
def ltInf (d : ℕ) : Option ℕ → Bool
  | none => true
  | some m => d < m

/-- The boundary-selection walk itself. -/
def splitScan (target : ℕ) :
    List Str → ℕ → ℕ → ℕ → Option ℕ → ℕ
  | [], _, _, best, _ => best
  | p :: ps, i, cum, best, minDiff =>
    let cum' := cum + (norm_no_ws p).length
    let d := Nat.dist cum' target
    if ltInf d minDiff then
      splitScan target ps (i + 1) cum' (i + 1) (some d)
    else
      splitScan target ps (i + 1) cum' best minDiff

/-- The chosen `best_split_idx` for a target offset and paragraph list
(initial value `1`, initial `min_diff = inf`). -/
def bestSplitIdx (target : ℕ) (paras : List Str) : ℕ :=
  splitScan target paras 0 0 1 none

/-- `split_xml_by_ocr_structure(xml_text, ocr_good, ocr_concern)`:
returns `(good_points, concerns)`.  `int(xml_len * good_ratio)` (a float
truncation of a nonnegative value in the source) is modelled as the natural
floor division `xml_len * good_len / total_len`. -/
def split_xml_by_ocr_structure (xmlText ocrGood ocrConcern : Str) : Str × Str :=
  let goodLen := (norm_no_ws ocrGood).length
  let concernLen := (norm_no_ws ocrConcern).length
  let totalLen := goodLen + concernLen
  if totalLen = 0 then (xmlText, [])
  else if goodLen = 0 ∧ 0 < concernLen then ([], xmlText)
  else if concernLen = 0 ∧ 0 < goodLen then (xmlText, [])
  else
    let xmlLen := (norm_no_ws xmlText).length
    let target := xmlLen * goodLen / totalLen
    let paras := splitParagraphs xmlText
    if paras.length ≤ 1 then (xmlText, [])
    else
      let idx := bestSplitIdx target paras
      (joinNl (paras.take idx), joinNl (paras.drop idx))

/-! ## Cross-source matcher (`merge_reviews`) -/

/-- Python `enumerate` starting at `n`. -/
def enumFrom : ℕ → List α → List (ℕ × α)
  | _, [] => []
  | n, a :: as => (n, a) :: enumFrom (n + 1) as

/-- The exact metadata key condition of the matcher:
grade, participation and year equal. -/
def sameKey (o : OcrReview) (x : XmlReview) : Prop :=
  o.grade = x.grade ∧ o.participation = x.participation ∧ o.year = x.year

instance (o : OcrReview) (x : XmlReview) : Decidable (sameKey o x) := by
  unfold sameKey; infer_instance

/-- `combined_ocr = ocr_review['good_points'] + ocr_review['concerns']`. -/
def combinedOcr (o : OcrReview) : Str := o.good_points ++ o.concerns

/-- The candidate-selection loop of `merge_reviews` over an enumerated
suffix of the XML list: skip consumed indices, require the exact key, and
keep the strictly best similarity seen so far. -/
def findBestAux (sim : Str → Str → ℚ) (o : OcrReview) :
    List (ℕ × XmlReview) → Finset ℕ → Option (ℕ × XmlReview) → ℚ →
      Option (ℕ × XmlReview) × ℚ
  | [], _, best, bs => (best, bs)
  | (i, x) :: rest, consumed, best, bs =>
    if i ∈ consumed then findBestAux sim o rest consumed best bs
    else if sameKey o x ∧ bs < sim (combinedOcr o) x.text then
      findBestAux sim o rest consumed (some (i, x)) (sim (combinedOcr o) x.text)
    else findBestAux sim o rest consumed best bs

/-- One OCR review's search over all not-yet-consumed XML reviews
(`best_match = None`, `best_similarity = 0.0` initially). -/
def findBest (sim : Str → Str → ℚ) (o : OcrReview) (xmls : List XmlReview)
    (consumed : Finset ℕ) : Option (ℕ × XmlReview) × ℚ :=
  findBestAux sim o (enumFrom 0 xmls) consumed none 0

/-- The `'OCR only'` merged record (OCR text verbatim). -/
def ocrOnlyMerged (o : OcrReview) : MergedReview :=
  { university := o.university, grade := o.grade, gender := o.gender,
    participation := o.participation, year := o.year,
    good_points := o.good_points, concerns := o.concerns,
    source := ("OCR only").data, similarity := none }

/-- The `'OCR structure + XML text'` merged record: XML body split by the
OCR structure, gender backfilled from the XML side when the OCR one is
empty (Python `ocr_review['gender'] or best_match['gender']`). -/
def structureMerged (o : OcrReview) (x : XmlReview) (s : ℚ) : MergedReview :=
  let sp := split_xml_by_ocr_structure x.text o.good_points o.concerns
  { university := o.university, grade := o.grade,
    gender := if o.gender = [] then x.gender else o.gender,
    participation := o.participation, year := o.year,
    good_points := sp.1, concerns := sp.2,
    source := ("OCR structure + XML text").data, similarity := some s }

/-- One iteration of the matching loop: the produced merged record, the XML
index it consumed (if any), and the updated consumed set
(`best_match and best_similarity > 0.3`). -/
def mergeStep (sim : Str → Str → ℚ) (xmls : List XmlReview)
    (consumed : Finset ℕ) (o : OcrReview) :
    MergedReview × Option ℕ × Finset ℕ :=
  match findBest sim o xmls consumed with
  | (some (idx, x), s) =>
    if mkRat 3 10 < s then
      (structureMerged o x s, some idx, insert idx consumed)
    else (ocrOnlyMerged o, none, consumed)
  | (none, _) => (ocrOnlyMerged o, none, consumed)

/-- The matching loop of `merge_reviews`, threading the consumed set and
recording which XML index each output consumed. -/
def mergeReviewsAux (sim : Str → Str → ℚ) (xmls : List XmlReview) :
    List OcrReview → Finset ℕ → List (MergedReview × Option ℕ)
  | [], _ => []
  | o :: rest, consumed =>
    let r := mergeStep sim xmls consumed o
    (r.1, r.2.1) :: mergeReviewsAux sim xmls rest r.2.2

/-- `merge_reviews(ocr_reviews, xml_reviews)`: the emitted merged list
(matched-index bookkeeping projected away).  Unmatched XML reviews are not
appended (the heuristic-split block is commented out in the source). -/
def merge_reviews (sim : Str → Str → ℚ)
    (ocrs : List OcrReview) (xmls : List XmlReview) : List MergedReview :=
  (mergeReviewsAux sim xmls ocrs ∅).map Prod.fst

/-! ## Concrete instances used in witnesses and counterexamples -/

/-- A degenerate similarity oracle (never fuzzy-accepts anything). -/
def ratioZero : Str → Str → ℚ := fun _ _ => 0

/-- A maximal similarity oracle (`ratio = 1.0` everywhere). -/
def ratioOne : Str → Str → ℚ := fun _ _ => 1

/-- A similarity oracle below the 0.3 matcher threshold. -/
def ratioQuarter : Str → Str → ℚ := fun _ _ => mkRat 1 4

/-- A concrete OCR review used in witnesses. -/
def wOcr : OcrReview :=
  { university := [], grade := ("6y").data, gender := [],
    participation := ("visit").data, year := ("2023").data,
    good_points := ("good").data, concerns := ("conc").data }

/-- A concrete XML review with the same matching key as `wOcr`. -/
def wXml : XmlReview :=
  { university := [], grade := ("6y").data, gender := ("f").data,
    participation := ("visit").data, year := ("2023").data,
    text := ("a\nbb").data }

/-- `wOcr` with a different `year` (for the metadata-gating witness). -/
def wOcr2 : OcrReview := { wOcr with year := ("2020").data }

/-- Counterexample XML body: two paragraphs of normalized lengths 1 and 10. -/
def cexXml : Str := ("a\nbbbbbbbbbb").data

/-- Counterexample OCR good text: 99 non-whitespace characters. -/
def cexGood : Str := List.replicate 99 'a'

/-- Counterexample OCR concern text: 1 character. -/
def cexConc : Str := ("z").data

/-- Counterexample string `a` for containment monotonicity. -/
def cexA : Str := ("xy").data

/-- Counterexample string `b`: same normalized form as `cexA`, different raw
form. -/
def cexB : Str := ("x y").data

/-! ## Lemmas about whitespace normalization -/

lemma norm_append (a b : Str) :
    norm_no_ws (a ++ b) = norm_no_ws a ++ norm_no_ws b := by
  simp [norm_no_ws, List.filter_append]

lemma norm_lstrip (s : Str) : norm_no_ws (lstripWS s) = norm_no_ws s := by
  induction s with
  | nil => rfl
  | cons c rest ih =>
    by_cases h : isWS c = true
    · simpa [lstripWS, List.dropWhile_cons, h, norm_no_ws, List.filter_cons]
        using ih
    · simp [lstripWS, List.dropWhile_cons, h]

lemma norm_reverse (s : Str) :
    norm_no_ws s.reverse = (norm_no_ws s).reverse := by
  simp [norm_no_ws]

lemma norm_rstrip (s : Str) : norm_no_ws (rstripWS s) = norm_no_ws s := by
  have h : rstripWS s = (lstripWS s.reverse).reverse := rfl
  rw [h, norm_reverse, norm_lstrip, norm_reverse, List.reverse_reverse]

lemma norm_drop_index (s : Str) :
    ∀ k, norm_no_ws (s.drop (index_after_norm_chars s k)) =
      (norm_no_ws s).drop k := by
  induction s with
  | nil => intro k; cases k <;> rfl
  | cons c rest ih =>
    intro k
    cases k with
    | zero => rfl
    | succ r =>
      by_cases h : isWS c = true
      · simpa [index_after_norm_chars, h, norm_no_ws, List.filter_cons]
          using ih (r + 1)
      · cases r with
        | zero => simp [index_after_norm_chars, h, norm_no_ws, List.filter_cons]
        | succ r' =>
          simpa [index_after_norm_chars, h, norm_no_ws, List.filter_cons]
            using ih (r' + 1)

lemma length_norm_drop_index (s : Str) (k : ℕ) :
    (norm_no_ws (s.drop (index_after_norm_chars s k))).length =
      (norm_no_ws s).length - k := by
  rw [norm_drop_index]; simp

/-! ## Lemmas about the overlap-length search -/

lemma mem_downFrom_le : ∀ (n hi l : ℕ), l ∈ downFrom hi n → l ≤ hi := by
  intro n
  induction n with
  | zero => intro hi l h; cases h
  | succ m ih =>
    intro hi l h
    rcases List.mem_cons.mp h with h' | h'
    · omega
    · have := ih (hi - 1) l h'
      omega

lemma overlapScan_le (ratio : Str → Str → ℚ) (aN bN : Str) (fz : ℚ) :
    ∀ (ls : List ℕ) (L : ℕ), (∀ l ∈ ls, l ≤ L) →
      overlapScan ratio aN bN fz ls ≤ L := by
  intro ls
  induction ls with
  | nil => intro L _; simp [overlapScan]
  | cons l rest ih =>
    intro L h
    simp only [overlapScan]
    split_ifs <;>
      first
      | exact h l (List.mem_cons_self l rest)
      | exact ih L (fun x hx => h x (List.mem_cons_of_mem l hx))

lemma best_overlap_len_le_right (ratio : Str → Str → ℚ) (aN bN : Str)
    (mi ma : ℕ) (fz : ℚ) :
    best_overlap_len ratio aN bN mi ma fz ≤ bN.length := by
  simp only [best_overlap_len]
  split_ifs with h
  · exact Nat.zero_le _
  · refine le_trans
      (overlapScan_le ratio aN bN fz _ (min (min aN.length bN.length) ma)
        (fun l hl => mem_downFrom_le _ _ _ hl)) ?_
    exact le_trans (min_le_left _ _) (min_le_right _ _)

/-! ## Lemmas about the substring test -/

lemma isPrefOf_refl : ∀ s : Str, isPrefOf s s = true := by
  intro s
  induction s with
  | nil => rfl
  | cons c rest ih => simp [isPrefOf, ih]

lemma isSubstrOf_refl (s : Str) : isSubstrOf s s = true := by
  cases s with
  | nil => rfl
  | cons c rest => simp [isSubstrOf, isPrefOf_refl]

lemma isPrefOf_length : ∀ p s : Str, isPrefOf p s = true →
    p.length ≤ s.length := by
  intro p
  induction p with
  | nil => intro s _; simp
  | cons a as ih =>
    intro s h
    cases s with
    | nil => simp [isPrefOf] at h
    | cons b bs =>
      simp only [isPrefOf, Bool.and_eq_true] at h
      simpa [List.length_cons] using ih bs h.2

lemma isSubstrOf_length : ∀ p s : Str, isSubstrOf p s = true →
    p.length ≤ s.length := by
  intro p s
  induction s with
  | nil =>
    intro h
    cases p with
    | nil => simp
    | cons a as => simp [isSubstrOf, isPrefOf] at h
  | cons b bs ih =>
    intro h
    simp only [isSubstrOf, Bool.or_eq_true] at h
    rcases h with h | h
    · exact isPrefOf_length _ _ h
    · have := ih h
      simp only [List.length_cons]
      omega

lemma isPrefOf_eq_of_length : ∀ p s : Str, isPrefOf p s = true →
    s.length ≤ p.length → p = s := by
  intro p
  induction p with
  | nil =>
    intro s _ hlen
    cases s with
    | nil => rfl
    | cons b bs => simp at hlen
  | cons a as ih =>
    intro s h hlen
    cases s with
    | nil => simp [isPrefOf] at h
    | cons b bs =>
      simp only [isPrefOf, Bool.and_eq_true, beq_iff_eq] at h
      have := ih bs h.2 (by simpa using hlen)
      rw [h.1, this]

lemma isSubstrOf_isPref_of_length : ∀ p s : Str, isSubstrOf p s = true →
    s.length ≤ p.length → isPrefOf p s = true := by
  intro p s
  induction s with
  | nil =>
    intro h _
    cases p with
    | nil => rfl
    | cons a as => simp [isSubstrOf, isPrefOf] at h
  | cons b bs ih =>
    intro h hlen
    simp only [isSubstrOf, Bool.or_eq_true] at h
    rcases h with h | h
    · exact h
    · have := isSubstrOf_length _ _ h
      simp only [List.length_cons] at hlen
      omega

lemma isSubstrOf_antisymm (p s : Str) (h1 : isSubstrOf p s = true)
    (h2 : isSubstrOf s p = true) : p = s := by
  have l1 := isSubstrOf_length p s h1
  have l2 := isSubstrOf_length s p h2
  exact isPrefOf_eq_of_length p s (isSubstrOf_isPref_of_length p s h1 l2) l2

lemma isSubstrOf_nil_of_ne (p : Str) (hp : p ≠ []) :
    isSubstrOf p [] = false := by
  cases p with
  | nil => exact absurd rfl hp
  | cons a as => rfl

/-! ## Lemmas about the matcher -/

lemma mem_enumFrom {α : Type} : ∀ (l : List α) (n i : ℕ) (x : α),
    (i, x) ∈ enumFrom n l → n ≤ i ∧ l.get? (i - n) = some x := by
  intro l
  induction l with
  | nil => intro n i x h; cases h
  | cons a as ih =>
    intro n i x h
    rcases List.mem_cons.mp h with h' | h'
    · obtain ⟨h1, h2⟩ := Prod.mk.inj h'
      subst h1; subst h2
      simp
    · obtain ⟨hle, hget⟩ := ih (n + 1) i x h'
      constructor
      · omega
      · have : i - n = (i - (n + 1)) + 1 := by omega
        rw [this]
        simpa using hget

lemma enumFrom_mem_of_get {α : Type} : ∀ (l : List α) (n j : ℕ) (x : α),
    l.get? j = some x → (n + j, x) ∈ enumFrom n l := by
  intro l
  induction l with
  | nil => intro n j x h; simp at h
  | cons a as ih =>
    intro n j x h
    cases j with
    | zero =>
      simp only [List.get?] at h
      injection h with h
      subst h
      simp [enumFrom]
    | succ j' =>
      simp only [List.get?] at h
      have := ih (n + 1) j' x h
      have harith : n + (j' + 1) = (n + 1) + j' := by omega
      rw [harith]
      exact List.mem_cons_of_mem _ this

lemma findBestAux_spec (sim : Str → Str → ℚ) (o : OcrReview) :
    ∀ (pairs : List (ℕ × XmlReview)) (cons : Finset ℕ)
      (best : Option (ℕ × XmlReview)) (bs : ℚ),
    bs ≤ (findBestAux sim o pairs cons best bs).2 ∧
    (∀ i x, (i, x) ∈ pairs → i ∉ cons → sameKey o x →
      sim (combinedOcr o) x.text ≤ (findBestAux sim o pairs cons best bs).2) ∧
    (∀ i x, (findBestAux sim o pairs cons best bs).1 = some (i, x) →
      (best = some (i, x) ∧ (findBestAux sim o pairs cons best bs).2 = bs) ∨
      ((i, x) ∈ pairs ∧ i ∉ cons ∧ sameKey o x ∧
        (findBestAux sim o pairs cons best bs).2 =
          sim (combinedOcr o) x.text)) := by
  intro pairs
  induction pairs with
  | nil =>
    intro cons best bs
    refine ⟨le_refl _, ?_, ?_⟩
    · intro i x h; cases h
    · intro i x h; exact Or.inl ⟨h, rfl⟩
  | cons hd tl ih =>
    intro cons best bs
    obtain ⟨j, y⟩ := hd
    by_cases hj : j ∈ cons
    · have heq : findBestAux sim o ((j, y) :: tl) cons best bs =
        findBestAux sim o tl cons best bs := by
        simp [findBestAux, hj]
      rw [heq]
      obtain ⟨ih1, ih2, ih3⟩ := ih cons best bs
      refine ⟨ih1, ?_, ?_⟩
      · intro i x hmem hi hk
        rcases List.mem_cons.mp hmem with h' | h'
        · exact absurd ((Prod.mk.inj h').1 ▸ hj) hi
        · exact ih2 i x h' hi hk
      · intro i x h
        rcases ih3 i x h with h' | h'
        · exact Or.inl h'
        · exact Or.inr ⟨List.mem_cons_of_mem _ h'.1, h'.2⟩
    · by_cases hcond : sameKey o y ∧ bs < sim (combinedOcr o) y.text
      · have heq : findBestAux sim o ((j, y) :: tl) cons best bs =
          findBestAux sim o tl cons (some (j, y))
            (sim (combinedOcr o) y.text) := by
          simp [findBestAux, hj, hcond]
        rw [heq]
        obtain ⟨ih1, ih2, ih3⟩ :=
          ih cons (some (j, y)) (sim (combinedOcr o) y.text)
        refine ⟨le_trans (le_of_lt hcond.2) ih1, ?_, ?_⟩
        · intro i x hmem hi hk
          rcases List.mem_cons.mp hmem with h' | h'
          · obtain ⟨h1, h2⟩ := Prod.mk.inj h'
            subst h1; subst h2
            exact ih1
          · exact ih2 i x h' hi hk
        · intro i x h
          rcases ih3 i x h with h' | h'
          · obtain ⟨heq', hval⟩ := h'
            injection heq' with heq''
            obtain ⟨h1, h2⟩ := Prod.mk.inj heq''.symm
            exact Or.inr ⟨by rw [h1, h2]; exact List.mem_cons_self _ _,
              h1 ▸ hj, h2 ▸ hcond.1, by rw [hval, h2]⟩
          · exact Or.inr ⟨List.mem_cons_of_mem _ h'.1, h'.2⟩
      · have heq : findBestAux sim o ((j, y) :: tl) cons best bs =
          findBestAux sim o tl cons best bs := by
          simp only [findBestAux, if_neg hj, if_neg hcond]
        rw [heq]
        obtain ⟨ih1, ih2, ih3⟩ := ih cons best bs
        refine ⟨ih1, ?_, ?_⟩
        · intro i x hmem hi hk
          rcases List.mem_cons.mp hmem with h' | h'
          · obtain ⟨h1, h2⟩ := Prod.mk.inj h'
            subst h1; subst h2
            have : ¬ bs < sim (combinedOcr o) x.text := fun hlt =>
              hcond ⟨hk, hlt⟩
            exact le_trans (not_lt.mp this) ih1
          · exact ih2 i x h' hi hk
        · intro i x h
          rcases ih3 i x h with h' | h'
          · exact Or.inl h'
          · exact Or.inr ⟨List.mem_cons_of_mem _ h'.1, h'.2⟩

lemma findBest_spec {sim : Str → Str → ℚ} {o : OcrReview}
    {xmls : List XmlReview} {cons : Finset ℕ} {idx : ℕ} {x : XmlReview}
    {s : ℚ} (h : findBest sim o xmls cons = (some (idx, x), s)) :
    idx ∉ cons ∧ xmls.get? idx = some x ∧ sameKey o x ∧
    s = sim (combinedOcr o) x.text ∧
    ∀ j y, xmls.get? j = some y → j ∉ cons → sameKey o y →
      sim (combinedOcr o) y.text ≤ s := by
  obtain ⟨h1, h2, h3⟩ := findBestAux_spec sim o (enumFrom 0 xmls) cons none 0
  rw [show findBestAux sim o (enumFrom 0 xmls) cons none 0 =
    findBest sim o xmls cons from rfl] at h1 h2 h3
  rw [h] at h1 h2 h3
  rcases h3 idx x rfl with h' | h'
  · exact absurd h'.1 (by simp)
  · obtain ⟨hmem, hnc, hk, hval⟩ := h'
    obtain ⟨_, hget⟩ := mem_enumFrom xmls 0 idx x hmem
    refine ⟨hnc, by simpa using hget, hk, hval, ?_⟩
    intro j y hgj hj hky
    have hmemj : (j, y) ∈ enumFrom 0 xmls := by
      simpa using enumFrom_mem_of_get xmls 0 j y hgj
    exact h2 j y hmemj hj hky

lemma mergeStep_consumed_cases (sim : Str → Str → ℚ)
    (xmls : List XmlReview) (cons : Finset ℕ) (o : OcrReview) :
    ((mergeStep sim xmls cons o).2.1 = none ∧
      (mergeStep sim xmls cons o).2.2 = cons) ∨
    (∃ idx, (mergeStep sim xmls cons o).2.1 = some idx ∧ idx ∉ cons ∧
      (mergeStep sim xmls cons o).2.2 = insert idx cons) := by
  unfold mergeStep
  rcases hfb : findBest sim o xmls cons with ⟨bm, s⟩
  cases bm with
  | none => simp
  | some p =>
    obtain ⟨idx, x⟩ := p
    by_cases hs : mkRat 3 10 < s
    · right
      refine ⟨idx, ?_⟩
      have hnc := (findBest_spec hfb).1
      simp [hs, hnc]
    · left
      simp [hs]

lemma mergeStep_meta (sim : Str → Str → ℚ) (xmls : List XmlReview)
    (cons : Finset ℕ) (o : OcrReview) :
    (mergeStep sim xmls cons o).1.university = o.university ∧
    (mergeStep sim xmls cons o).1.grade = o.grade ∧
    (mergeStep sim xmls cons o).1.participation = o.participation ∧
    (mergeStep sim xmls cons o).1.year = o.year := by
  unfold mergeStep
  rcases findBest sim o xmls cons with ⟨bm, s⟩
  cases bm with
  | none => simp [ocrOnlyMerged]
  | some p =>
    obtain ⟨idx, x⟩ := p
    by_cases hs : mkRat 3 10 < s
    · simp [hs, structureMerged, ocrOnlyMerged]
    · simp [hs, ocrOnlyMerged]

lemma mergeReviewsAux_trace (sim : Str → Str → ℚ) (xmls : List XmlReview) :
    ∀ (ocrs : List OcrReview) (cons : Finset ℕ),
    ((mergeReviewsAux sim xmls ocrs cons).filterMap
        (fun r => r.2)).Nodup ∧
    ∀ i ∈ (mergeReviewsAux sim xmls ocrs cons).filterMap (fun r => r.2),
      i ∉ cons := by
  intro ocrs
  induction ocrs with
  | nil => intro cons; simp [mergeReviewsAux]
  | cons o rest ih =>
    intro cons
    rcases mergeStep_consumed_cases sim xmls cons o with
      ⟨hnone, hcons⟩ | ⟨idx, hsome, hnc, hcons⟩
    · have heq : mergeReviewsAux sim xmls (o :: rest) cons =
        ((mergeStep sim xmls cons o).1, (mergeStep sim xmls cons o).2.1) ::
          mergeReviewsAux sim xmls rest (mergeStep sim xmls cons o).2.2 := rfl
      rw [heq, hnone, hcons]
      obtain ⟨ih1, ih2⟩ := ih cons
      exact ⟨ih1, ih2⟩
    · have heq : mergeReviewsAux sim xmls (o :: rest) cons =
        ((mergeStep sim xmls cons o).1, (mergeStep sim xmls cons o).2.1) ::
          mergeReviewsAux sim xmls rest (mergeStep sim xmls cons o).2.2 := rfl
      rw [heq, hsome, hcons]
      obtain ⟨ih1, ih2⟩ := ih (insert idx cons)
      simp only [List.filterMap_cons, List.nodup_cons, List.mem_cons]
      refine ⟨⟨?_, ih1⟩, ?_⟩
      · intro hmem
        exact (ih2 idx hmem) (Finset.mem_insert_self idx cons)
      · intro i hi
        rcases hi with h' | h'
        · subst h'; exact hnc
        · intro hic
          exact (ih2 i h') (Finset.mem_insert_of_mem hic)

lemma mergeReviewsAux_length (sim : Str → Str → ℚ) (xmls : List XmlReview) :
    ∀ (ocrs : List OcrReview) (cons : Finset ℕ),
    (mergeReviewsAux sim xmls ocrs cons).length = ocrs.length := by
  intro ocrs
  induction ocrs with
  | nil => intro cons; rfl
  | cons o rest ih =>
    intro cons
    have heq : mergeReviewsAux sim xmls (o :: rest) cons =
      ((mergeStep sim xmls cons o).1, (mergeStep sim xmls cons o).2.1) ::
        mergeReviewsAux sim xmls rest (mergeStep sim xmls cons o).2.2 := rfl
    rw [heq]
    simp [ih]

lemma mergeReviewsAux_get (sim : Str → Str → ℚ) (xmls : List XmlReview) :
    ∀ (ocrs : List OcrReview) (cons : Finset ℕ) (i : ℕ) (o : OcrReview),
    ocrs.get? i = some o →
    ∃ m, ((mergeReviewsAux sim xmls ocrs cons).map Prod.fst).get? i =
        some m ∧
      m.university = o.university ∧ m.grade = o.grade ∧
      m.participation = o.participation ∧ m.year = o.year := by
  intro ocrs
  induction ocrs with
  | nil => intro cons i o h; simp at h
  | cons o' rest ih =>
    intro cons i o h
    have heq : mergeReviewsAux sim xmls (o' :: rest) cons =
      ((mergeStep sim xmls cons o').1, (mergeStep sim xmls cons o').2.1) ::
        mergeReviewsAux sim xmls rest (mergeStep sim xmls cons o').2.2 := rfl
    cases i with
    | zero =>
      simp only [List.get?] at h
      injection h with h
      rw [← h]
      refine ⟨(mergeStep sim xmls cons o').1, ?_⟩
      obtain ⟨m1, m2, m3, m4⟩ := mergeStep_meta sim xmls cons o'
      rw [heq]
      exact ⟨rfl, m1, m2, m3, m4⟩
    | succ i' =>
      simp only [List.get?] at h
      obtain ⟨m, hm, hmeta⟩ :=
        ih (mergeStep sim xmls cons o').2.2 i' o h
      refine ⟨m, ?_, hmeta⟩
      rw [heq]
      simpa using hm

/-! ## Lemmas about the proportional splitter -/

lemma splitScan_ge_one (target : ℕ) :
    ∀ (ps : List Str) (i cum best : ℕ) (m : Option ℕ), 1 ≤ best →
    1 ≤ splitScan target ps i cum best m := by
  intro ps
  induction ps with
  | nil => intro i cum best m h; simpa [splitScan] using h
  | cons p ps' ih =>
    intro i cum best m h
    simp only [splitScan]
    split_ifs
    · exact ih (i + 1) _ (i + 1) _ (by omega)
    · exact ih (i + 1) _ best _ h

lemma splitScan_le (target : ℕ) :
    ∀ (ps : List Str) (i cum best : ℕ) (m : Option ℕ),
    splitScan target ps i cum best m ≤ max best (i + ps.length) := by
  intro ps
  induction ps with
  | nil => intro i cum best m; simp [splitScan]
  | cons p ps' ih =>
    intro i cum best m
    simp only [splitScan]
    split_ifs
    · refine le_trans (ih (i + 1) _ (i + 1) _) ?_
      simp only [List.length_cons]
      omega
    · refine le_trans (ih (i + 1) _ best _) ?_
      simp only [List.length_cons]
      omega

lemma bestSplitIdx_bounds (target : ℕ) (paras : List Str)
    (hp : 1 ≤ paras.length) :
    1 ≤ bestSplitIdx target paras ∧
      bestSplitIdx target paras ≤ paras.length := by
  constructor
  · exact splitScan_ge_one target paras 0 0 1 none le_rfl
  · have h2 := splitScan_le target paras 0 0 1 none
    simp only [bestSplitIdx]
    omega

lemma splitParagraphs_ne_nil (xmlText : Str) :
    ∀ p ∈ splitParagraphs xmlText, p ≠ [] := by
  intro p hp
  simp only [splitParagraphs, List.mem_filter, decide_eq_true_eq] at hp
  exact hp.2

lemma joinNl_ne_nil : ∀ (l : List Str), l ≠ [] → (∀ p ∈ l, p ≠ []) →
    joinNl l ≠ [] := by
  intro l hne hel
  cases l with
  | nil => exact absurd rfl hne
  | cons p ps =>
    cases ps with
    | nil =>
      simpa [joinNl] using hel p (List.mem_cons_self p [])
    | cons q qs =>
      simp [joinNl]

/-! ## Claim theorems -/

/-- C1: in any run of `merge_reviews`, each XML review index is consumed by
(matched to) at most one OCR review: the list of matched indices recorded
along the matching loop has no duplicates, as enforced by the
consumed-index set. -/
theorem c1_xml_consumed_at_most_once (sim : Str → Str → ℚ)
    (ocrs : List OcrReview) (xmls : List XmlReview) :
    ((mergeReviewsAux sim xmls ocrs ∅).filterMap (fun r => r.2)).Nodup :=
  (mergeReviewsAux_trace sim xmls ocrs ∅).1

/-- C2: two records with different `year` values are never merged or
matched: the adjacency-walk eligibility test and the windowed-dedup
metadata test both return `false`, and the cross-source matcher never
selects such a candidate, for every similarity function (hence even at
similarity 1.0). -/
theorem c2_year_gating :
    (∀ r1 r2 : OcrReview, r1.year ≠ r2.year →
      same_meta_for_adjacent_merge r1 r2 = false) ∧
    (∀ a b : OcrReview, a.year ≠ b.year → same_meta a b = false) ∧
    (∀ (sim : Str → Str → ℚ) (o : OcrReview) (xmls : List XmlReview)
      (cons : Finset ℕ) (idx : ℕ) (x : XmlReview) (s : ℚ),
      o.year ≠ x.year → findBest sim o xmls cons ≠ (some (idx, x), s)) := by
  refine ⟨?_, ?_, ?_⟩
  · intro r1 r2 h
    simp only [same_meta_for_adjacent_merge]
    rw [if_pos h]
  · intro a b h
    simp only [same_meta]
    rw [if_pos h]
  · intro sim o xmls cons idx x s h heq
    exact h (findBest_spec heq).2.2.1.2.2

/-- C2 witness: concrete records with different years are rejected by all
three tests, with the similarity oracle constantly 1. -/
theorem c2_year_gating_witness :
    same_meta_for_adjacent_merge wOcr wOcr2 = false ∧
    same_meta wOcr wOcr2 = false ∧
    findBest ratioOne wOcr2 [wXml] ∅ ≠ (some (0, wXml), 1) :=
  ⟨c2_year_gating.1 wOcr wOcr2 (by decide),
   c2_year_gating.2.1 wOcr wOcr2 (by decide),
   c2_year_gating.2.2 ratioOne wOcr2 [wXml] ∅ 0 wXml 1 (by decide)⟩

/-- C4: when the matcher selects a candidate for an OCR review, that
candidate was not yet consumed, sits in the XML list at the returned index,
agrees exactly on the (grade, participation, year) key, and its similarity
is maximal among all not-yet-consumed key-matching candidates; moreover one
matching step never removes indices from the consumed set (a consumed XML
review is never reassigned later). -/
theorem c4_greedy_matcher :
    (∀ (sim : Str → Str → ℚ) (o : OcrReview) (xmls : List XmlReview)
      (cons : Finset ℕ) (idx : ℕ) (x : XmlReview) (s : ℚ),
      findBest sim o xmls cons = (some (idx, x), s) →
      idx ∉ cons ∧ xmls.get? idx = some x ∧ sameKey o x ∧
      s = sim (combinedOcr o) x.text ∧
      ∀ j y, xmls.get? j = some y → j ∉ cons → sameKey o y →
        sim (combinedOcr o) y.text ≤ s) ∧
    (∀ (sim : Str → Str → ℚ) (xmls : List XmlReview) (cons : Finset ℕ)
      (o : OcrReview), cons ⊆ (mergeStep sim xmls cons o).2.2) := by
  constructor
  · intro sim o xmls cons idx x s h
    exact findBest_spec h
  · intro sim xmls cons o
    rcases mergeStep_consumed_cases sim xmls cons o with
      ⟨_, h⟩ | ⟨idx, _, _, h⟩
    · rw [h]
    · rw [h]; exact Finset.subset_insert idx cons

/-- C4 witness: the matcher picks the sole key-matching candidate at
index 0 with maximal similarity. -/
theorem c4_greedy_matcher_witness :
    (0 : ℕ) ∉ (∅ : Finset ℕ) ∧ [wXml].get? 0 = some wXml ∧
    sameKey wOcr wXml ∧ (1 : ℚ) = ratioOne (combinedOcr wOcr) wXml.text ∧
    (∀ j y, [wXml].get? j = some y → j ∉ (∅ : Finset ℕ) →
      sameKey wOcr y → ratioOne (combinedOcr wOcr) y.text ≤ 1) :=
  c4_greedy_matcher.1 ratioOne wOcr [wXml] ∅ 0 wXml 1 (by decide)

/-- C5: when the best candidate's similarity does not exceed the 0.3
threshold, the matching step emits the OCR-only merged record carrying the
OCR text verbatim, records no matched index, and leaves the consumed set
unchanged, so the candidate stays available for a later OCR review. -/
theorem c5_below_threshold_ocr_only (sim : Str → Str → ℚ)
    (xmls : List XmlReview) (cons : Finset ℕ) (o : OcrReview) (idx : ℕ)
    (x : XmlReview) (s : ℚ)
    (h : findBest sim o xmls cons = (some (idx, x), s))
    (hs : s ≤ mkRat 3 10) :
    mergeStep sim xmls cons o = (ocrOnlyMerged o, none, cons) ∧
    (mergeStep sim xmls cons o).1.good_points = o.good_points ∧
    (mergeStep sim xmls cons o).1.concerns = o.concerns ∧
    (mergeStep sim xmls cons o).1.source = ("OCR only").data ∧
    (mergeStep sim xmls cons o).2.2 = cons := by
  have hstep : mergeStep sim xmls cons o = (ocrOnlyMerged o, none, cons) := by
    unfold mergeStep
    rw [h]
    exact if_neg (not_lt.mpr hs)
  rw [hstep]
  exact ⟨rfl, rfl, rfl, rfl, rfl⟩

/-- C5 witness: similarity 0.25 with a key-matching candidate yields the
OCR-only record and an unchanged consumed set. -/
theorem c5_below_threshold_witness :
    mergeStep ratioQuarter [wXml] ∅ wOcr = (ocrOnlyMerged wOcr, none, ∅) ∧
    (mergeStep ratioQuarter [wXml] ∅ wOcr).1.good_points =
      wOcr.good_points ∧
    (mergeStep ratioQuarter [wXml] ∅ wOcr).1.concerns = wOcr.concerns ∧
    (mergeStep ratioQuarter [wXml] ∅ wOcr).1.source = ("OCR only").data ∧
    (mergeStep ratioQuarter [wXml] ∅ wOcr).2.2 = ∅ :=
  c5_below_threshold_ocr_only ratioQuarter [wXml] ∅ wOcr 0 wXml (mkRat 1 4)
    (by decide) (by decide)

/-- C9: `merge_reviews` emits exactly one merged record per OCR review,
and each output position carries the corresponding OCR review's metadata
(so unconsumed XML reviews are never emitted as extra records). -/
theorem c9_output_shape (sim : Str → Str → ℚ) (ocrs : List OcrReview)
    (xmls : List XmlReview) :
    (merge_reviews sim ocrs xmls).length = ocrs.length ∧
    ∀ i o, ocrs.get? i = some o →
      ∃ m, (merge_reviews sim ocrs xmls).get? i = some m ∧
        m.university = o.university ∧ m.grade = o.grade ∧
        m.participation = o.participation ∧ m.year = o.year := by
  constructor
  · simp [merge_reviews, mergeReviewsAux_length]
  · intro i o h
    exact mergeReviewsAux_get sim xmls ocrs ∅ i o h

/-- C9 witness: one OCR review and no XML reviews yield exactly one output
record with the OCR review's metadata. -/
theorem c9_output_shape_witness :
    (merge_reviews ratioOne [wOcr] []).length = 1 ∧
    ∃ m, (merge_reviews ratioOne [wOcr] []).get? 0 = some m ∧
      m.university = wOcr.university ∧ m.grade = wOcr.grade ∧
      m.participation = wOcr.participation ∧ m.year = wOcr.year :=
  ⟨(c9_output_shape ratioOne [wOcr] []).1,
   (c9_output_shape ratioOne [wOcr] []).2 0 wOcr (by decide)⟩

/-- C10: a merge against a whitespace-only (normalized-empty) first block
returns the second block with success `true`, and a merge of a non-blank
first block against a whitespace-only second block returns the first block
with success `true`, even though no textual overlap exists. -/
theorem c10_blank_merge_success :
    (∀ (ratio : Str → Str → ℚ) (a b : Str) (minOv maxOv : ℕ) (fz : ℚ),
      norm_no_ws a = [] →
      merge_text_by_overlap ratio a b minOv maxOv fz = (b, true)) ∧
    (∀ (ratio : Str → Str → ℚ) (a b : Str) (minOv maxOv : ℕ) (fz : ℚ),
      norm_no_ws a ≠ [] → norm_no_ws b = [] →
      merge_text_by_overlap ratio a b minOv maxOv fz = (a, true)) := by
  constructor
  · intro ratio a b minOv maxOv fz h
    simp only [merge_text_by_overlap]
    rw [if_pos h]
  · intro ratio a b minOv maxOv fz ha hb
    simp only [merge_text_by_overlap]
    rw [if_neg ha, if_pos hb]

/-- C10 witness: blank-versus-text in both argument orders. -/
theorem c10_blank_merge_witness :
    (norm_no_ws (" ").data = [] ∧
      merge_text_by_overlap ratioZero (" ").data ("z").data 40 300
        (93 / 100) = (("z").data, true)) ∧
    (norm_no_ws ("z").data ≠ [] ∧ norm_no_ws (" ").data = [] ∧
      merge_text_by_overlap ratioZero ("z").data (" ").data 40 300
        (93 / 100) = (("z").data, true)) :=
  ⟨⟨by decide,
    c10_blank_merge_success.1 ratioZero (" ").data ("z").data 40 300
      (93 / 100) (by decide)⟩,
   ⟨by decide, by decide,
    c10_blank_merge_success.2 ratioZero ("z").data (" ").data 40 300
      (93 / 100) (by decide) (by decide)⟩⟩

/-- C8: the splitter's fallbacks: both OCR fields normalized-empty sends
all XML text to `good_points`; exactly one populated OCR field receives all
XML text with the other field empty; and (with both fields populated) fewer
than 2 non-empty paragraphs sends all text to `good_points` with no split
attempted. -/
theorem c8_splitter_fallbacks (xml g c : Str) :
    ((norm_no_ws g).length = 0 → (norm_no_ws c).length = 0 →
      split_xml_by_ocr_structure xml g c = (xml, [])) ∧
    ((norm_no_ws g).length = 0 → 0 < (norm_no_ws c).length →
      split_xml_by_ocr_structure xml g c = ([], xml)) ∧
    ((norm_no_ws c).length = 0 → 0 < (norm_no_ws g).length →
      split_xml_by_ocr_structure xml g c = (xml, [])) ∧
    (0 < (norm_no_ws g).length → 0 < (norm_no_ws c).length →
      (splitParagraphs xml).length ≤ 1 →
      split_xml_by_ocr_structure xml g c = (xml, [])) := by
  refine ⟨?_, ?_, ?_, ?_⟩
  · intro hg hc
    simp only [split_xml_by_ocr_structure]
    rw [if_pos (by omega)]
  · intro hg hc
    simp only [split_xml_by_ocr_structure]
    rw [if_neg (by omega), if_pos ⟨hg, hc⟩]
  · intro hc hg
    simp only [split_xml_by_ocr_structure]
    rw [if_neg (by omega), if_neg (by omega), if_pos ⟨hc, hg⟩]
  · intro hg hc hp
    simp only [split_xml_by_ocr_structure]
    rw [if_neg (by omega), if_neg (by omega), if_neg (by omega), if_pos hp]

/-- C8 witness: the four fallback branches at concrete inputs. -/
theorem c8_splitter_fallbacks_witness :
    split_xml_by_ocr_structure ("t").data [] [] = (("t").data, []) ∧
    split_xml_by_ocr_structure ("t").data [] ("z").data = ([], ("t").data) ∧
    split_xml_by_ocr_structure ("t").data ("z").data [] = (("t").data, []) ∧
    split_xml_by_ocr_structure ("t").data ("z").data ("w").data =
      (("t").data, []) :=
  ⟨(c8_splitter_fallbacks ("t").data [] []).1 (by decide) (by decide),
   (c8_splitter_fallbacks ("t").data [] ("z").data).2.1 (by decide)
     (by decide),
   (c8_splitter_fallbacks ("t").data ("z").data []).2.2.1 (by decide)
     (by decide),
   (c8_splitter_fallbacks ("t").data ("z").data ("w").data).2.2.2
     (by decide) (by decide) (by decide)⟩

/-- C6 (amended): if the normalized form of `a` is a substring of and
different from the normalized form of `b`, `merge_text_by_overlap` returns
`(b, true)` in both call directions; and `merge_text_by_overlap (a, a)`
returns `(a, true)` unchanged.  (When the two normalized forms are equal
but the raw strings differ, the reversed direction returns `(a, true)`
instead — see the counterexample.) -/
theorem c6_containment_monotonicity :
    (∀ (ratio : Str → Str → ℚ) (a b : Str) (minOv maxOv : ℕ) (fz : ℚ),
      isSubstrOf (norm_no_ws a) (norm_no_ws b) = true →
      norm_no_ws a ≠ norm_no_ws b →
      merge_text_by_overlap ratio a b minOv maxOv fz = (b, true) ∧
      merge_text_by_overlap ratio b a minOv maxOv fz = (b, true)) ∧
    (∀ (ratio : Str → Str → ℚ) (a : Str) (minOv maxOv : ℕ) (fz : ℚ),
      merge_text_by_overlap ratio a a minOv maxOv fz = (a, true)) := by
  constructor
  · intro ratio a b minOv maxOv fz h1 h2
    by_cases ha : norm_no_ws a = []
    · have hb : norm_no_ws b ≠ [] := fun hb => h2 (by rw [ha, hb])
      constructor
      · simp only [merge_text_by_overlap]
        rw [if_pos ha]
      · simp only [merge_text_by_overlap]
        rw [if_neg hb, if_pos ha]
    · have hb : norm_no_ws b ≠ [] := by
        intro hb
        rw [hb, isSubstrOf_nil_of_ne _ ha] at h1
        exact Bool.false_ne_true h1
      have hba : ¬ isSubstrOf (norm_no_ws b) (norm_no_ws a) = true :=
        fun hc => h2 (isSubstrOf_antisymm _ _ h1 hc)
      constructor
      · simp only [merge_text_by_overlap]
        rw [if_neg ha, if_neg hb, if_pos h1]
      · simp only [merge_text_by_overlap]
        rw [if_neg hb, if_neg ha, if_neg hba, if_pos h1]
  · intro ratio a minOv maxOv fz
    by_cases ha : norm_no_ws a = []
    · simp only [merge_text_by_overlap]
      rw [if_pos ha]
    · simp only [merge_text_by_overlap]
      rw [if_neg ha, if_neg ha, if_pos (isSubstrOf_refl _)]

/-- C6 witness: a strict-containment pair merged in both directions, and
idempotence at a concrete string. -/
theorem c6_containment_witness :
    (merge_text_by_overlap ratioZero ("bc").data ("abcd").data 40 300
       (mkRat 93 100) = (("abcd").data, true) ∧
     merge_text_by_overlap ratioZero ("abcd").data ("bc").data 40 300
       (mkRat 93 100) = (("abcd").data, true)) ∧
    merge_text_by_overlap ratioZero ("abc").data ("abc").data 40 300
      (mkRat 93 100) = (("abc").data, true) :=
  ⟨c6_containment_monotonicity.1 ratioZero ("bc").data ("abcd").data 40 300
     (mkRat 93 100) (by decide) (by decide),
   c6_containment_monotonicity.2 ratioZero ("abc").data 40 300
     (mkRat 93 100)⟩

/-- C6 counterexample: with `a = "xy"` and `b = "x y"` the normalized form
of `a` is a substring of that of `b`, yet the reversed call
`merge_text_by_overlap (b, a)` returns `(a, true)`, not `(b, true)` as the
claim states for both directions. -/
theorem c6_containment_counterexample :
    isSubstrOf (norm_no_ws cexA) (norm_no_ws cexB) = true ∧
    merge_text_by_overlap ratioZero cexB cexA 40 300 (mkRat 93 100) =
      (cexA, true) ∧
    merge_text_by_overlap ratioZero cexB cexA 40 300 (mkRat 93 100) ≠
      (cexB, true) := by decide

/-- C3 (amended): on the proportional-split path (both OCR fields
populated, at least 2 paragraphs) the chosen paragraph boundary index lies
in `[1, numParagraphs]` — not `[1, numParagraphs - 1]` — the output is the
join of the paragraphs before/after that boundary, and `concerns` is
non-empty whenever the chosen index is strictly below `numParagraphs`
(it is empty exactly when the final boundary is chosen — see the
counterexample). -/
theorem c3_split_boundary_bounds (xml g c : Str) (tgt : ℕ)
    (hg : (norm_no_ws g).length ≠ 0) (hc : (norm_no_ws c).length ≠ 0)
    (hp : 2 ≤ (splitParagraphs xml).length)
    (htgt : tgt = (norm_no_ws xml).length * (norm_no_ws g).length /
      ((norm_no_ws g).length + (norm_no_ws c).length)) :
    (1 ≤ bestSplitIdx tgt (splitParagraphs xml) ∧
      bestSplitIdx tgt (splitParagraphs xml) ≤
        (splitParagraphs xml).length) ∧
    split_xml_by_ocr_structure xml g c =
      (joinNl ((splitParagraphs xml).take
        (bestSplitIdx tgt (splitParagraphs xml))),
       joinNl ((splitParagraphs xml).drop
        (bestSplitIdx tgt (splitParagraphs xml)))) ∧
    (bestSplitIdx tgt (splitParagraphs xml) < (splitParagraphs xml).length →
      (split_xml_by_ocr_structure xml g c).2 ≠ []) := by
  subst htgt
  have hbounds := bestSplitIdx_bounds
    ((norm_no_ws xml).length * (norm_no_ws g).length /
      ((norm_no_ws g).length + (norm_no_ws c).length))
    (splitParagraphs xml) (by omega)
  have heq : split_xml_by_ocr_structure xml g c =
      (joinNl ((splitParagraphs xml).take
        (bestSplitIdx ((norm_no_ws xml).length * (norm_no_ws g).length /
          ((norm_no_ws g).length + (norm_no_ws c).length))
          (splitParagraphs xml))),
       joinNl ((splitParagraphs xml).drop
        (bestSplitIdx ((norm_no_ws xml).length * (norm_no_ws g).length /
          ((norm_no_ws g).length + (norm_no_ws c).length))
          (splitParagraphs xml)))) := by
    simp only [split_xml_by_ocr_structure]
    rw [if_neg (by omega), if_neg (by omega), if_neg (by omega),
      if_neg (by omega)]
  refine ⟨hbounds, heq, ?_⟩
  intro hlt
  rw [heq]
  refine joinNl_ne_nil _ ?_ ?_
  · intro hnil
    have := congrArg List.length hnil
    rw [List.length_drop] at this
    simp only [List.length_nil] at this
    omega
  · intro p hp'
    exact splitParagraphs_ne_nil xml p (List.drop_subset _ _ hp')

/-- C3 witness: a balanced split at a concrete input chooses the interior
boundary 1 of 2 paragraphs and produces a non-empty `concerns`. -/
theorem c3_split_boundary_witness :
    (1 ≤ bestSplitIdx 2 (splitParagraphs ("ab\ncd").data) ∧
      bestSplitIdx 2 (splitParagraphs ("ab\ncd").data) ≤
        (splitParagraphs ("ab\ncd").data).length) ∧
    split_xml_by_ocr_structure ("ab\ncd").data ("aa").data ("aa").data =
      (joinNl ((splitParagraphs ("ab\ncd").data).take
        (bestSplitIdx 2 (splitParagraphs ("ab\ncd").data))),
       joinNl ((splitParagraphs ("ab\ncd").data).drop
        (bestSplitIdx 2 (splitParagraphs ("ab\ncd").data)))) ∧
    (bestSplitIdx 2 (splitParagraphs ("ab\ncd").data) <
        (splitParagraphs ("ab\ncd").data).length →
      (split_xml_by_ocr_structure ("ab\ncd").data ("aa").data
        ("aa").data).2 ≠ []) :=
  c3_split_boundary_bounds ("ab\ncd").data ("aa").data ("aa").data 2
    (by decide) (by decide) (by decide) (by decide)

/-- C3 counterexample: with both OCR fields populated (normalized lengths
99 and 1) and an XML body of 2 paragraphs (normalized lengths 1 and 10),
the proportional split chooses boundary index 2 = numParagraphs — outside
the claimed `[1, numParagraphs - 1]` — and the resulting `concerns` is
empty although the split path (not a fallback) was taken. -/
theorem c3_split_boundary_counterexample :
    0 < (norm_no_ws cexGood).length ∧ 0 < (norm_no_ws cexConc).length ∧
    2 ≤ (splitParagraphs cexXml).length ∧
    bestSplitIdx ((norm_no_ws cexXml).length * (norm_no_ws cexGood).length /
        ((norm_no_ws cexGood).length + (norm_no_ws cexConc).length))
      (splitParagraphs cexXml) = (splitParagraphs cexXml).length ∧
    ¬ (bestSplitIdx ((norm_no_ws cexXml).length *
          (norm_no_ws cexGood).length /
        ((norm_no_ws cexGood).length + (norm_no_ws cexConc).length))
      (splitParagraphs cexXml) ≤ (splitParagraphs cexXml).length - 1) ∧
    (split_xml_by_ocr_structure cexXml cexGood cexConc).2 = [] := by
  decide

lemma norm_joiner (P : Prop) [Decidable P] :
    norm_no_ws (if P then ['\n'] else ([] : Str)) = [] := by
  split_ifs <;> rfl

lemma merge_branch_norm_length (a b : Str) (k : ℕ) (P : Prop) [Decidable P]
    (hk : k ≠ 0) (hkb : k ≤ (norm_no_ws b).length) :
    (norm_no_ws ((rstripWS a ++ (if P then ['\n'] else ([] : Str))) ++
      lstripWS (b.drop (index_after_norm_chars b k)))).length <
    (norm_no_ws a).length + (norm_no_ws b).length := by
  rw [norm_append, norm_append, norm_rstrip, norm_lstrip, norm_joiner,
    norm_drop_index]
  simp only [List.length_append, List.length_drop, List.length_nil,
    Nat.add_zero]
  omega

/-- C7: when `merge_text_by_overlap` merges through a positive qualifying
overlap (non-containment case), the normalized length of the result is
strictly less than the sum of the two normalized input lengths; and when
neither direction finds a qualifying overlap it returns `a` unchanged with
success `false` (no concatenation on the no-merge path). -/
theorem c7_overlap_merge_length :
    (∀ (ratio : Str → Str → ℚ) (a b : Str) (minOv maxOv : ℕ) (fz : ℚ),
      norm_no_ws a ≠ [] → norm_no_ws b ≠ [] →
      isSubstrOf (norm_no_ws a) (norm_no_ws b) = false →
      isSubstrOf (norm_no_ws b) (norm_no_ws a) = false →
      ¬(best_overlap_len ratio (norm_no_ws a) (norm_no_ws b) minOv maxOv
          fz = 0 ∧
        best_overlap_len ratio (norm_no_ws b) (norm_no_ws a) minOv maxOv
          fz = 0) →
      (merge_text_by_overlap ratio a b minOv maxOv fz).2 = true ∧
      (norm_no_ws (merge_text_by_overlap ratio a b minOv maxOv fz).1).length
        < (norm_no_ws a).length + (norm_no_ws b).length) ∧
    (∀ (ratio : Str → Str → ℚ) (a b : Str) (minOv maxOv : ℕ) (fz : ℚ),
      norm_no_ws a ≠ [] → norm_no_ws b ≠ [] →
      isSubstrOf (norm_no_ws a) (norm_no_ws b) = false →
      isSubstrOf (norm_no_ws b) (norm_no_ws a) = false →
      best_overlap_len ratio (norm_no_ws a) (norm_no_ws b) minOv maxOv
        fz = 0 →
      best_overlap_len ratio (norm_no_ws b) (norm_no_ws a) minOv maxOv
        fz = 0 →
      merge_text_by_overlap ratio a b minOv maxOv fz = (a, false)) := by
  constructor
  · intro ratio a b minOv maxOv fz ha hb hab hba hnz
    have hlb := best_overlap_len_le_right ratio (norm_no_ws a)
      (norm_no_ws b) minOv maxOv fz
    have hla := best_overlap_len_le_right ratio (norm_no_ws b)
      (norm_no_ws a) minOv maxOv fz
    simp only [merge_text_by_overlap]
    rw [if_neg ha, if_neg hb, if_neg (by simp [hab]), if_neg (by simp [hba]),
      if_neg hnz]
    by_cases hle : best_overlap_len ratio (norm_no_ws b) (norm_no_ws a)
        minOv maxOv fz ≤
      best_overlap_len ratio (norm_no_ws a) (norm_no_ws b) minOv maxOv fz
    · rw [if_pos hle]
      exact ⟨rfl, merge_branch_norm_length a b _ _ (by omega) hlb⟩
    · rw [if_neg hle]
      refine ⟨rfl, ?_⟩
      rw [Nat.add_comm ((norm_no_ws a).length)]
      exact merge_branch_norm_length b a _ _ (by omega) hla
  · intro ratio a b minOv maxOv fz ha hb hab hba h1 h2
    simp only [merge_text_by_overlap]
    rw [if_neg ha, if_neg hb, if_neg (by simp [hab]), if_neg (by simp [hba]),
      if_pos ⟨h1, h2⟩]

/-- C7 witness: a one-character exact overlap shortens the normalized
result below the length sum, and an overlap-free pair is returned
unchanged with success `false`. -/
theorem c7_overlap_merge_witness :
    ((merge_text_by_overlap ratioZero ("ab").data ("bc").data 1 300
        (mkRat 1 2)).2 = true ∧
      (norm_no_ws (merge_text_by_overlap ratioZero ("ab").data ("bc").data
          1 300 (mkRat 1 2)).1).length <
        (norm_no_ws ("ab").data).length +
          (norm_no_ws ("bc").data).length) ∧
    merge_text_by_overlap ratioZero ("ab").data ("cd").data 1 300
      (mkRat 1 2) = (("ab").data, false) :=
  ⟨c7_overlap_merge_length.1 ratioZero ("ab").data ("bc").data 1 300
     (mkRat 1 2) (by decide) (by decide) (by decide) (by decide)
     (by decide),
   c7_overlap_merge_length.2 ratioZero ("ab").data ("cd").data 1 300
     (mkRat 1 2) (by decide) (by decide) (by decide) (by decide)
     (by decide) (by decide)⟩

end Hokuto
